import Mathlib

/-
  Verification of the binary prefix-trie IP lookup core (src/index.js).

  The JavaScript source is shallowly embedded below:
  * strings are `List Char`;
  * `String.prototype.split(sep)` (single-character separator) is `splitOn`;
  * the builtin `Number(s)` coercion is `jsNumber` (see its doc comment for
    the fragment of JavaScript number syntax that is modelled);
  * `num.toString(2)` on a natural number is `Nat.toDigits 2 num`
    (most-significant digit first, `'0'` for zero), and
    `.padStart(8, '0')` is `padStart8`;
  * thrown exceptions become `Except IpErr` / an `Option IpErr` component;
  * the trie node's plain-object `children` map becomes an association list
    with JavaScript property get/set semantics (`getA` / `setA`).
-/

set_option autoImplicit false
set_option maxRecDepth 40000

namespace IpTrie

/-- JavaScript single-character `split`: `"".split(c) = [""]`,
separators delimit possibly-empty fields. -/
def splitOn (sep : Char) : List Char → List (List Char)
  | [] => [[]]
  | c :: cs =>
    if c = sep then [] :: splitOn sep cs
    else
      match splitOn sep cs with
      | [] => [[c]]
      | p :: ps => (c :: p) :: ps

/-- Value of a string of decimal digits (left fold, most significant first). -/
def decValue (s : List Char) : ℕ :=
  s.foldl (fun a c => 10 * a + (c.toNat - 48)) 0

/-- Model of the JavaScript `Number(s)` string-to-number coercion, used by the
source for octets and prefix lengths.  The modelled fragment is: the empty
string coerces to `0`; a string of decimal digits coerces to its decimal
value; a string of digits containing a single `'.'` (with at least one digit
on one side) coerces to the corresponding rational; everything else is NaN
(`none`).  Signs, whitespace, exponents, hex/octal/binary literals and
`Infinity` are outside the modelled fragment; no theorem below depends on
such inputs. -/
def jsNumber (s : List Char) : Option ℚ :=
  match splitOn '.' s with
  | [t] =>
    if t = [] then some 0
    else if t.all Char.isDigit then some (decValue t) else none
  | [a, b] =>
    if a = [] ∧ b = [] then none
    else if a.all Char.isDigit ∧ b.all Char.isDigit then
      some (mkRat (decValue a * 10 ^ b.length + decValue b) (10 ^ b.length))
    else none
  | _ => none

/-- The exceptions thrown by the source, by throw site:
`invalidAddressFormat` for "Invalid IP address format" (carries the address),
`invalidOctet` for "Invalid octet in IP address" (carries the octet),
`invalidCidrFormat` for "Invalid CIDR format" (carries the CIDR string),
`invalidPrefixLen` for "Invalid prefix length in CIDR" (carries the CIDR
string). -/
inductive IpErr where
  | invalidAddressFormat (ip : List Char)
  | invalidOctet (octet : List Char)
  | invalidCidrFormat (cidr : List Char)
  | invalidPrefixLen (cidr : List Char)
  deriving DecidableEq

instance {ε σ : Type} [DecidableEq ε] [DecidableEq σ] : DecidableEq (Except ε σ)
  | .error a, .error b =>
    if h : a = b then .isTrue (by rw [h]) else .isFalse (fun hh => by cases hh; exact h rfl)
  | .error _, .ok _ => .isFalse (fun hh => by cases hh)
  | .ok _, .error _ => .isFalse (fun hh => by cases hh)
  | .ok a, .ok b =>
    if h : a = b then .isTrue (by rw [h]) else .isFalse (fun hh => by cases hh; exact h rfl)

/-- `.padStart(8, '0')`. -/
def padStart8 (s : List Char) : List Char :=
  List.replicate (8 - s.length) '0' ++ s

/-- The body of `octets.map(...)` in `ipToBinary`, fused with the `.join('')`;
exceptions propagate from the first offending octet, as in the source. -/
def octetsToBits : List (List Char) → Except IpErr (List Char)
  | [] => .ok []
  | oct :: rest =>
    match jsNumber oct with
    | none => .error (.invalidOctet oct)
    | some num =>
      if num < 0 ∨ 255 < num then .error (.invalidOctet oct)
      else
        match octetsToBits rest with
        | .error e => .error e
        | .ok bs => .ok (padStart8 (Nat.toDigits 2 num.num.toNat) ++ bs)

/-- Embedding of `ipToBinary` (src/index.js lines 10-22); `splitOn '.' ip` is
the source's local `octets`. -/
def ipToBinary (ip : List Char) : Except IpErr (List Char) :=
  if (splitOn '.' ip).length ≠ 4 then .error (.invalidAddressFormat ip)
  else octetsToBits (splitOn '.' ip)

/-- Embedding of `parseCIDR` (src/index.js lines 30-43).  The prefix length is
kept as the rational the `Number` coercion produced, exactly as the source
keeps the JavaScript number without truncation. -/
def parseCIDR (cidr : List Char) : Except IpErr (List Char × ℚ) :=
  match splitOn '/' cidr with
  | [ip, plStr] =>
    match jsNumber plStr with
    | none => .error (.invalidPrefixLen cidr)
    | some prefLen =>
      if prefLen < 0 ∨ 32 < prefLen then .error (.invalidPrefixLen cidr)
      else
        match ipToBinary ip with
        | .error e => .error e
        | .ok _ => .ok (ip, prefLen)
  | _ => .error (.invalidCidrFormat cidr)

/-- Embedding of `TrieNode` (src/index.js lines 48-53): a `children` object
keyed by single characters and a `data` array.  The object is modelled as an
association list with distinct keys in property-creation order. -/
inductive TrieNode (α : Type) where
  | mk (children : List (Char × TrieNode α)) (data : List α)

variable {α : Type} {β : Type}

def TrieNode.children : TrieNode α → List (Char × TrieNode α)
  | .mk c _ => c

def TrieNode.data : TrieNode α → List α
  | .mk _ d => d

/-- `new TrieNode()`. -/
def emptyNode : TrieNode α := .mk [] []

/-- JavaScript property read `obj[k]` on the children object. -/
def getA (k : Char) : List (Char × β) → Option β
  | [] => none
  | (k', v) :: rest => if k' = k then some v else getA k rest

/-- JavaScript property write `obj[k] = v`: overwrites an existing key in
place, otherwise appends a new property. -/
def setA (k : Char) (v : β) : List (Char × β) → List (Char × β)
  | [] => [(k, v)]
  | (k', w) :: rest => if k' = k then (k, v) :: rest else (k', w) :: setA k v rest

/-- The walk of `Trie.insert`'s `for` loop followed by the final
`node.data.push(data)`: consume the given bits, creating missing children,
then append the record at the node reached. -/
def insertBits : TrieNode α → List Char → α → TrieNode α
  | .mk ch d, [], r => .mk ch (d ++ [r])
  | .mk ch d, bit :: bits, r =>
    let child := (getA bit ch).getD emptyNode
    .mk (setA bit (insertBits child bits r) ch) d

/-- Number of iterations of `for (let i = 0; i < prefixLength; i++)` for a
(possibly non-integer) JavaScript prefix length: the count of naturals below
`p`. -/
def iterCount (p : ℚ) : ℕ := ⌈p⌉.toNat

/-- Embedding of `Trie.insert` (src/index.js lines 68-83).  Returns the trie
after the call together with the thrown exception, if any; both throw sites
(`parseCIDR`, `ipToBinary`) precede the first mutation in the source, so on
an exception the returned trie is the unchanged input. -/
def insertS (t : TrieNode α) (cidr : List Char) (r : α) : TrieNode α × Option IpErr :=
  match parseCIDR cidr with
  | .error e => (t, some e)
  | .ok (ip, prefLen) =>
    match ipToBinary ip with
    | .error e => (t, some e)
    | .ok binaryIp => (insertBits t (binaryIp.take (iterCount prefLen)) r, none)

/-- The loop of `Trie.searchAll`: look up each successive bit; on a hit,
descend and collect the child's records; on a miss, stop.  Note the loop
collects data only after stepping into a child, so the data of the node the
walk starts at is never collected. -/
def searchBits : TrieNode α → List Char → List α
  | _, [] => []
  | t, bit :: bits =>
    match getA bit t.children with
    | none => []
    | some child => child.data ++ searchBits child bits

/-- Embedding of `Trie.searchAll` (src/index.js lines 90-108); the loop runs
for at most 32 bits starting from the root. -/
def searchAll (t : TrieNode α) (ip : List Char) : Except IpErr (List α) :=
  match ipToBinary ip with
  | .error e => .error e
  | .ok binaryIp => .ok (searchBits t (binaryIp.take 32))

/-- The node of a trie reached by following a bit path, if every edge exists. -/
def nodeAt : TrieNode α → List Char → Option (TrieNode α)
  | t, [] => some t
  | t, bit :: bits =>
    match getA bit t.children with
    | none => none
    | some child => nodeAt child bits

/-- The records stored at the node reached by a bit path (empty if no node is
there). -/
def recordsAt (t : TrieNode α) (path : List Char) : List α :=
  match nodeAt t path with
  | none => []
  | some n => n.data

/-- The octet validation performed inside `ipToBinary`'s map body, as a
Boolean predicate: the field coerces to a number in `[0, 255]`. -/
def octOk (f : List Char) : Bool :=
  match jsNumber f with
  | none => false
  | some num => if num < 0 ∨ 255 < num then false else true

/-- The prefix-length validation performed by `parseCIDR`, as a Boolean
predicate: the field coerces to a number in `[0, 32]`. -/
def plOk (f : List Char) : Bool :=
  match jsNumber f with
  | none => false
  | some num => if num < 0 ∨ 32 < num then false else true

/-- Modelled from the spec: the 8-bit big-endian (most-significant-bit-first)
binary representation of an octet, bit `j` being bit `7 - j` of the value. -/
def bigEndian8 (n : ℕ) : List Char :=
  (List.range 8).map (fun j => if n / 2 ^ (7 - j) % 2 = 1 then '1' else '0')

/-- Modelled from the spec: decoding a group of bits binary-to-decimal
(most-significant bit first). -/
def binToNat (s : List Char) : ℕ :=
  s.foldl (fun a c => 2 * a + (if c = '1' then 1 else 0)) 0

/-- Whether an `Except` value is a success. -/
def isOk {ε σ : Type} : Except ε σ → Bool
  | .ok _ => true
  | .error _ => false

@[simp] theorem children_mk (ch : List (Char × TrieNode α)) (d : List α) :
    (TrieNode.mk ch d).children = ch := rfl

@[simp] theorem data_mk (ch : List (Char × TrieNode α)) (d : List α) :
    (TrieNode.mk ch d).data = d := rfl

@[simp] theorem isOk_ok {ε σ : Type} (a : σ) : isOk (Except.ok a : Except ε σ) = true := rfl

@[simp] theorem isOk_error {ε σ : Type} (e : ε) : isOk (Except.error e : Except ε σ) = false := rfl

theorem getA_setA_self (k : Char) (v : β) (l : List (Char × β)) :
    getA k (setA k v l) = some v := by
  induction l with
  | nil => simp [getA, setA]
  | cons hd tl ih =>
    obtain ⟨k', w⟩ := hd
    by_cases h : k' = k <;> simp [getA, setA, h, ih]

theorem getA_setA_ne (k k' : Char) (v : β) (l : List (Char × β)) (hne : k' ≠ k) :
    getA k' (setA k v l) = getA k' l := by
  induction l with
  | nil => simp [getA, setA, Ne.symm hne]
  | cons hd tl ih =>
    obtain ⟨k'', w⟩ := hd
    by_cases h : k'' = k
    · subst h
      simp [getA, setA, Ne.symm hne]
    · simp [getA, setA, h, ih]

theorem splitOn_no_sep (sep : Char) (l : List Char) (h : ∀ c ∈ l, c ≠ sep) :
    splitOn sep l = [l] := by
  induction l with
  | nil => rfl
  | cons c cs ih =>
    have hc : c ≠ sep := h c (by simp)
    have ih' := ih (fun x hx => h x (by simp [hx]))
    simp [splitOn, hc, ih']

theorem splitOn_append_sep (sep : Char) (xs ys : List Char) (h : ∀ c ∈ xs, c ≠ sep) :
    splitOn sep (xs ++ sep :: ys) = xs :: splitOn sep ys := by
  induction xs with
  | nil => simp [splitOn]
  | cons c cs ih =>
    have hc : c ≠ sep := h c (by simp)
    have ih' := ih (fun x hx => h x (by simp [hx]))
    simp [splitOn, hc, ih']

theorem mem_splitOn_no_sep (sep : Char) (l f : List Char) (h : f ∈ splitOn sep l) :
    sep ∉ f := by
  induction l generalizing f with
  | nil =>
    simp [splitOn] at h
    simp [h]
  | cons c cs ih =>
    by_cases hc : c = sep
    · simp [splitOn, hc] at h
      rcases h with h | h
      · simp [h]
      · exact ih f h
    · simp only [splitOn, if_neg hc] at h
      cases hsp : splitOn sep cs with
      | nil => simp [hsp] at h; simp [h, Ne.symm hc]
      | cons p ps =>
        simp [hsp] at h
        rcases h with h | h
        · have hp : sep ∉ p := ih p (by simp [hsp])
          simp [h, Ne.symm hc, hp]
        · exact ih f (by simp [hsp, h])

theorem oct_pad_fin : ∀ n : Fin 256, padStart8 (Nat.toDigits 2 n.1) = bigEndian8 n.1 := by
  decide

theorem bigEndian8_binToNat_fin : ∀ n : Fin 256, binToNat (bigEndian8 n.1) = n.1 := by
  decide

theorem bigEndian8_chars_fin :
    ∀ n : Fin 256, (bigEndian8 n.1).all (fun c => c == '0' || c == '1') = true := by
  decide

theorem bigEndian8_len (n : ℕ) : (bigEndian8 n).length = 8 := by
  simp [bigEndian8]

theorem oct_pad (n : ℕ) (h : n ≤ 255) : padStart8 (Nat.toDigits 2 n) = bigEndian8 n :=
  oct_pad_fin ⟨n, by omega⟩

theorem bigEndian8_binToNat (n : ℕ) (h : n ≤ 255) : binToNat (bigEndian8 n) = n :=
  bigEndian8_binToNat_fin ⟨n, by omega⟩

theorem bigEndian8_chars (n : ℕ) (h : n ≤ 255) :
    (bigEndian8 n).all (fun c => c == '0' || c == '1') = true :=
  bigEndian8_chars_fin ⟨n, by omega⟩

theorem digit_ne_dot (c : Char) (h : c.isDigit = true) : c ≠ '.' := by
  intro hc
  subst hc
  simp [Char.isDigit] at h

theorem jsNumber_digits (f : List Char) (hne : f ≠ []) (hd : f.all Char.isDigit = true) :
    jsNumber f = some ((decValue f : ℕ) : ℚ) := by
  have hnd : ∀ c ∈ f, c ≠ '.' := by
    intro c hc
    exact digit_ne_dot c (by simpa using List.all_eq_true.mp hd c hc)
  rw [jsNumber, splitOn_no_sep '.' f hnd]
  simp [hne, hd]

theorem jsNumber_no_dot (f : List Char) (q : ℚ) (hnd : '.' ∉ f) (h : jsNumber f = some q) :
    q = ((decValue f : ℕ) : ℚ) := by
  rw [jsNumber, splitOn_no_sep '.' f (fun c hc hq => hnd (hq ▸ hc))] at h
  by_cases hf : f = []
  · simp [hf] at h
    simp [← h, hf, decValue]
  · by_cases hdig : f.all Char.isDigit = true
    · simp [hf, hdig] at h
      exact h.symm
    · simp [hf, hdig] at h

theorem octOk_none (f : List Char) (h : jsNumber f = none) : octOk f = false := by
  simp only [octOk, h]

theorem octOk_bad (f : List Char) (q : ℚ) (h : jsNumber f = some q) (hr : q < 0 ∨ 255 < q) :
    octOk f = false := by
  simp only [octOk, h, if_pos hr]

theorem octOk_good (f : List Char) (q : ℚ) (h : jsNumber f = some q) (hr : ¬(q < 0 ∨ 255 < q)) :
    octOk f = true := by
  simp only [octOk, h, if_neg hr]

theorem octetsToBits_isOk (L : List (List Char)) :
    isOk (octetsToBits L) = L.all octOk := by
  induction L with
  | nil => rfl
  | cons f L ih =>
    rw [List.all_cons, octetsToBits]
    cases hj : jsNumber f with
    | none => simp only [octOk_none f hj, isOk_error, Bool.false_and]
    | some q =>
      by_cases hr : q < 0 ∨ 255 < q
      · simp only [if_pos hr, octOk_bad f q hj hr, isOk_error, Bool.false_and]
      · simp only [if_neg hr]
        rw [octOk_good f q hj hr, Bool.true_and, ← ih]
        cases ho : octetsToBits L with
        | error e => simp only [ho, isOk_error]
        | ok bs => simp only [ho, isOk_ok]

theorem octetsToBits_error (L : List (List Char)) (e : IpErr) (h : octetsToBits L = .error e) :
    ∃ f, f ∈ L ∧ octOk f = false ∧ e = .invalidOctet f := by
  induction L with
  | nil => simp [octetsToBits] at h
  | cons f L ih =>
    rw [octetsToBits] at h
    cases hj : jsNumber f with
    | none =>
      simp only [hj] at h
      exact ⟨f, by simp, octOk_none f hj, by cases h; rfl⟩
    | some q =>
      simp only [hj] at h
      by_cases hr : q < 0 ∨ 255 < q
      · rw [if_pos hr] at h
        exact ⟨f, by simp, octOk_bad f q hj hr, by cases h; rfl⟩
      · rw [if_neg hr] at h
        cases ho : octetsToBits L with
        | error e' =>
          rw [ho] at h
          cases h
          obtain ⟨g, hg, hgo, hge⟩ := ih ho
          exact ⟨g, by simp [hg], hgo, hge⟩
        | ok bs => rw [ho] at h; cases h

theorem octetsToBits_cons_ok (f : List Char) (L : List (List Char)) (v : ℕ) (bs : List Char)
    (hj : jsNumber f = some ((v : ℕ) : ℚ)) (hv : v ≤ 255) (hL : octetsToBits L = .ok bs) :
    octetsToBits (f :: L) = .ok (bigEndian8 v ++ bs) := by
  have h0 : ¬(((v : ℕ) : ℚ) < 0) := not_lt.mpr (by positivity)
  have h255 : ¬((255 : ℚ) < ((v : ℕ) : ℚ)) := by
    rw [not_lt]
    exact_mod_cast hv
  have hnum : (((v : ℕ) : ℚ)).num.toNat = v := by
    rw [Rat.num_natCast]
    exact Int.toNat_natCast v
  rw [octetsToBits]
  simp only [hj]
  rw [if_neg (by tauto), hL, hnum, oct_pad v hv]

theorem ipToBinary_isOk (s : List Char) :
    isOk (ipToBinary s) = true ↔
      ((splitOn '.' s).length = 4 ∧ (splitOn '.' s).all octOk = true) := by
  rw [ipToBinary]
  by_cases h : (splitOn '.' s).length = 4
  · simp [h, octetsToBits_isOk]
  · simp [h]

theorem ipToBinary_error_char (s : List Char) (e : IpErr) (h : ipToBinary s = .error e) :
    ((splitOn '.' s).length ≠ 4 ∧ e = .invalidAddressFormat s) ∨
      ∃ f, f ∈ splitOn '.' s ∧ octOk f = false ∧ e = .invalidOctet f := by
  rw [ipToBinary] at h
  by_cases h4 : (splitOn '.' s).length = 4
  · simp only [h4, ne_eq, not_true_eq_false, if_false] at h
    exact Or.inr (octetsToBits_error _ e h)
  · simp only [h4, ne_eq, not_false_eq_true, if_true] at h
    exact Or.inl ⟨h4, by cases h; rfl⟩

theorem digits_no_dot (f : List Char) (hd : f.all Char.isDigit = true) : ∀ c ∈ f, c ≠ '.' := by
  intro c hc
  exact digit_ne_dot c (by simpa using List.all_eq_true.mp hd c hc)

theorem padStart8_len (v : ℕ) (h : v ≤ 255) : (padStart8 (Nat.toDigits 2 v)).length = 8 := by
  rw [oct_pad v h, bigEndian8_len]

theorem octetsToBits_len (L : List (List Char)) (bs : List Char)
    (hnd : ∀ f ∈ L, '.' ∉ f) (h : octetsToBits L = .ok bs) :
    bs.length = 8 * L.length := by
  induction L generalizing bs with
  | nil =>
    simp only [octetsToBits] at h
    cases h
    rfl
  | cons f L ih =>
    rw [octetsToBits] at h
    cases hj : jsNumber f with
    | none => simp only [hj] at h; cases h
    | some q =>
      simp only [hj] at h
      by_cases hr : q < 0 ∨ 255 < q
      · rw [if_pos hr] at h; cases h
      · rw [if_neg hr] at h
        cases ho : octetsToBits L with
        | error e => rw [ho] at h; cases h
        | ok bs' =>
          rw [ho] at h
          cases h
          have hq : q = ((decValue f : ℕ) : ℚ) := jsNumber_no_dot f q (hnd f (by simp)) hj
          have hv : decValue f ≤ 255 := by
            have := not_or.mp hr
            have h255 : q ≤ 255 := not_lt.mp this.2
            rw [hq] at h255
            exact_mod_cast h255
          have hnum : q.num.toNat = decValue f := by
            rw [hq, Rat.num_natCast]
            exact Int.toNat_natCast _
          have hrest := ih bs' (fun g hg => hnd g (List.mem_cons_of_mem f hg)) ho
          rw [List.length_append, hnum, padStart8_len _ hv, hrest, List.length_cons]
          ring

theorem ipToBinary_ok_len (s bits : List Char) (h : ipToBinary s = .ok bits) :
    bits.length = 32 := by
  rw [ipToBinary] at h
  by_cases h4 : (splitOn '.' s).length = 4
  · simp only [h4, ne_eq, not_true_eq_false, if_false] at h
    have := octetsToBits_len (splitOn '.' s) bits
      (fun f hf => mem_splitOn_no_sep '.' s f hf) h
    rw [this, h4]
  · simp only [h4, ne_eq, not_false_eq_true, if_true] at h
    cases h

theorem iterCount_natCast (n : ℕ) : iterCount ((n : ℕ) : ℚ) = n := by
  rw [iterCount, Int.ceil_natCast]
  exact Int.toNat_natCast n

theorem splitOn_four (f1 f2 f3 f4 : List Char)
    (h1 : ∀ c ∈ f1, c ≠ '.') (h2 : ∀ c ∈ f2, c ≠ '.')
    (h3 : ∀ c ∈ f3, c ≠ '.') (h4 : ∀ c ∈ f4, c ≠ '.') :
    splitOn '.' (f1 ++ '.' :: (f2 ++ '.' :: (f3 ++ '.' :: f4))) = [f1, f2, f3, f4] := by
  rw [splitOn_append_sep '.' f1 _ h1, splitOn_append_sep '.' f2 _ h2,
    splitOn_append_sep '.' f3 _ h3, splitOn_no_sep '.' f4 h4]

theorem getA_nil (k : Char) : getA k ([] : List (Char × β)) = none := rfl

theorem nodeAt_cons (t : TrieNode α) (b : Char) (bs : List Char) :
    nodeAt t (b :: bs) =
      match getA b t.children with
      | none => none
      | some child => nodeAt child bs := rfl

theorem searchBits_cons (t : TrieNode α) (b : Char) (bs : List Char) :
    searchBits t (b :: bs) =
      match getA b t.children with
      | none => []
      | some child => child.data ++ searchBits child bs := rfl

theorem recordsAt_nil (t : TrieNode α) : recordsAt t [] = t.data := by
  cases t
  rfl

theorem recordsAt_cons (t : TrieNode α) (b : Char) (bs : List Char) :
    recordsAt t (b :: bs) =
      match getA b t.children with
      | none => []
      | some child => recordsAt child bs := by
  rw [recordsAt, nodeAt_cons]
  cases h : getA b t.children
  · rfl
  · rfl

theorem nodeAt_empty (q : List Char) (h : q ≠ []) :
    nodeAt (emptyNode : TrieNode α) q = none := by
  cases q with
  | nil => exact absurd rfl h
  | cons b bs => rw [nodeAt_cons]; rfl

theorem recordsAt_empty (q : List Char) : recordsAt (emptyNode : TrieNode α) q = [] := by
  cases q with
  | nil => rfl
  | cons b bs => rw [recordsAt_cons]; rfl

theorem searchBits_mk_nil (d : List α) (q : List Char) :
    searchBits (TrieNode.mk [] d) q = [] := by
  cases q with
  | nil => rfl
  | cons b bs => rfl

theorem insertBits_nil (ch : List (Char × TrieNode α)) (d : List α) (r : α) :
    insertBits (TrieNode.mk ch d) [] r = TrieNode.mk ch (d ++ [r]) := rfl

theorem insertBits_cons (ch : List (Char × TrieNode α)) (d : List α) (b : Char)
    (bs : List Char) (r : α) :
    insertBits (TrieNode.mk ch d) (b :: bs) r =
      TrieNode.mk (setA b (insertBits ((getA b ch).getD emptyNode) bs r) ch) d := rfl

theorem recordsAt_insertBits_self (P : List Char) :
    ∀ (t : TrieNode α) (r : α), recordsAt (insertBits t P r) P = recordsAt t P ++ [r] := by
  induction P with
  | nil =>
    intro t r
    cases t with
    | mk ch d => rw [insertBits_nil, recordsAt_nil, recordsAt_nil, data_mk, data_mk]
  | cons b bs ih =>
    intro t r
    cases t with
    | mk ch d =>
      rw [insertBits_cons, recordsAt_cons, recordsAt_cons, children_mk, children_mk,
        getA_setA_self]
      cases h : getA b ch with
      | none => simp only [h, Option.getD_none, ih, recordsAt_empty, List.nil_append]
      | some c => simp only [h, Option.getD_some, ih]

theorem recordsAt_insertBits_ne (P : List Char) :
    ∀ (t : TrieNode α) (r : α) (q : List Char), q ≠ P →
      recordsAt (insertBits t P r) q = recordsAt t q := by
  induction P with
  | nil =>
    intro t r q hq
    cases t with
    | mk ch d =>
      cases q with
      | nil => exact absurd rfl hq
      | cons b bs => rw [insertBits_nil, recordsAt_cons, recordsAt_cons, children_mk, children_mk]
  | cons b bs ih =>
    intro t r q hq
    cases t with
    | mk ch d =>
      cases q with
      | nil => rw [insertBits_cons, recordsAt_nil, recordsAt_nil, data_mk, data_mk]
      | cons b' qs =>
        by_cases hb : b' = b
        · subst hb
          have hqs : qs ≠ bs := by
            intro hh
            exact hq (by rw [hh])
          rw [insertBits_cons, recordsAt_cons, recordsAt_cons, children_mk, children_mk,
            getA_setA_self]
          cases h : getA b' ch with
          | none =>
            simp only [h, Option.getD_none, ih emptyNode r qs hqs, recordsAt_empty]
          | some c => simp only [h, Option.getD_some, ih c r qs hqs]
        · rw [insertBits_cons, recordsAt_cons, recordsAt_cons, children_mk, children_mk,
            getA_setA_ne b b' _ ch hb]

theorem nodeAt_insertBits_off (P : List Char) :
    ∀ (t : TrieNode α) (r : α) (q : List Char), (¬∃ rest, q ++ rest = P) →
      nodeAt (insertBits t P r) q = nodeAt t q := by
  induction P with
  | nil =>
    intro t r q hq
    cases t with
    | mk ch d =>
      cases q with
      | nil => exact absurd ⟨[], rfl⟩ hq
      | cons b bs => rw [insertBits_nil, nodeAt_cons, nodeAt_cons, children_mk, children_mk]
  | cons b bs ih =>
    intro t r q hq
    cases t with
    | mk ch d =>
      cases q with
      | nil => exact absurd ⟨b :: bs, rfl⟩ hq
      | cons b' qs =>
        by_cases hb : b' = b
        · subst hb
          have hqs : ¬∃ rest, qs ++ rest = bs := by
            rintro ⟨rest, hr⟩
            exact hq ⟨rest, by rw [List.cons_append, hr]⟩
          rw [insertBits_cons, nodeAt_cons, nodeAt_cons, children_mk, children_mk,
            getA_setA_self]
          cases h : getA b' ch with
          | none =>
            have hqnil : qs ≠ [] := by
              intro hh
              exact hqs ⟨bs, by rw [hh, List.nil_append]⟩
            simp only [h, Option.getD_none, ih emptyNode r qs hqs, nodeAt_empty qs hqnil]
          | some c => simp only [h, Option.getD_some, ih c r qs hqs]
        · rw [insertBits_cons, nodeAt_cons, nodeAt_cons, children_mk, children_mk,
            getA_setA_ne b b' _ ch hb]

theorem ins2_empty_cons (b : Char) (P : List Char) (r1 r2 : α) :
    insertBits (insertBits (emptyNode : TrieNode α) (b :: P) r1) (b :: P) r2 =
      TrieNode.mk [(b, insertBits (insertBits emptyNode P r1) P r2)] [] := by
  have h1 : insertBits (emptyNode : TrieNode α) (b :: P) r1 =
      TrieNode.mk [(b, insertBits emptyNode P r1)] [] := by
    rw [emptyNode, insertBits_cons, getA_nil]
    rfl
  rw [h1, insertBits_cons]
  have h2 : getA b [(b, insertBits (emptyNode : TrieNode α) P r1)] =
      some (insertBits emptyNode P r1) := by
    simp [getA]
  rw [h2]
  simp [setA]

theorem searchBits_one (b : Char) (X : TrieNode α) (T : List Char) :
    searchBits (TrieNode.mk [(b, X)] []) (b :: T) = X.data ++ searchBits X T := by
  rw [searchBits_cons, children_mk]
  simp [getA]

theorem searchBits_double (P : List Char) :
    ∀ (b : Char) (rest : List Char) (r1 r2 : α),
      searchBits (insertBits (insertBits (emptyNode : TrieNode α) (b :: P) r1) (b :: P) r2)
        (b :: (P ++ rest)) = [r1, r2] := by
  induction P with
  | nil =>
    intro b rest r1 r2
    rw [ins2_empty_cons, searchBits_one]
    show (TrieNode.mk ([] : List (Char × TrieNode α)) [r1, r2]).data ++
      searchBits (TrieNode.mk ([] : List (Char × TrieNode α)) [r1, r2]) ([] ++ rest) = [r1, r2]
    rw [searchBits_mk_nil, data_mk, List.append_nil]
  | cons p P' ih =>
    intro b rest r1 r2
    rw [ins2_empty_cons, List.cons_append, searchBits_one, ih p rest r1 r2]
    have hd : (insertBits (insertBits (emptyNode : TrieNode α) (p :: P') r1) (p :: P') r2).data
        = [] := by
      rw [ins2_empty_cons, data_mk]
    rw [hd, List.nil_append]

theorem plOk_none (f : List Char) (h : jsNumber f = none) : plOk f = false := by
  simp only [plOk, h]

theorem plOk_bad (f : List Char) (q : ℚ) (h : jsNumber f = some q) (hr : q < 0 ∨ 32 < q) :
    plOk f = false := by
  simp only [plOk, h, if_pos hr]

theorem plOk_good (f : List Char) (q : ℚ) (h : jsNumber f = some q) (hr : ¬(q < 0 ∨ 32 < q)) :
    plOk f = true := by
  simp only [plOk, h, if_neg hr]

theorem insertS_eval {α : Type} (t : TrieNode α) (c ip : List Char) (p : ℚ)
    (bits : List Char) (r : α) (hp : parseCIDR c = .ok (ip, p))
    (hb : ipToBinary ip = .ok bits) :
    insertS t c r = (insertBits t (bits.take (iterCount p)) r, none) := by
  rw [insertS]
  simp only [hp, hb]

theorem searchAll_eval {α : Type} (t : TrieNode α) (ip bits : List Char)
    (hb : ipToBinary ip = .ok bits) :
    searchAll t ip = .ok (searchBits t (bits.take 32)) := by
  rw [searchAll]
  simp only [hb]

/-- Claim C1 (code bug): a record inserted under CIDR `0.0.0.0/0` is stored in
the root node's `data`, and the insert call succeeds; but `searchAll` only
collects records after stepping into a child, so for every query address the
encoder accepts the result is the empty list — the root record is never
included, let alone first. -/
theorem C1_root_record_never_returned {α : Type} (r : α) (ip bits : List Char)
    (hb : ipToBinary ip = .ok bits) :
    insertS (emptyNode : TrieNode α) ("0.0.0.0/0".toList) r = (TrieNode.mk [] [r], none) ∧
      searchAll (insertS (emptyNode : TrieNode α) ("0.0.0.0/0".toList) r).1 ip = .ok [] := by
  have hp : parseCIDR ("0.0.0.0/0".toList) = .ok ("0.0.0.0".toList, ((0 : ℕ) : ℚ)) := by
    decide
  have h0 : ipToBinary ("0.0.0.0".toList) = .ok (List.replicate 32 '0') := by decide
  have hS : insertS (emptyNode : TrieNode α) ("0.0.0.0/0".toList) r =
      (TrieNode.mk [] [r], none) := by
    rw [insertS_eval emptyNode _ _ _ _ r hp h0, iterCount_natCast, List.take_zero,
      emptyNode, insertBits_nil, List.nil_append]
  refine ⟨hS, ?_⟩
  rw [hS, searchAll_eval _ ip bits hb, searchBits_mk_nil]

theorem C1_witness :
    insertS (emptyNode : TrieNode ℕ) ("0.0.0.0/0".toList) 7 = (TrieNode.mk [] [7], none) ∧
      searchAll (insertS (emptyNode : TrieNode ℕ) ("0.0.0.0/0".toList) 7).1
        ("9.9.9.9".toList) = .ok [] :=
  C1_root_record_never_returned 7 ("9.9.9.9".toList)
    ("00001001000010010000100100001001".toList) (by decide)

/-- Claim C2 (code bug): record 1 is inserted under `0.0.0.0/0` (its bit
prefix is the empty sequence, a strict prefix of every other prefix) and
record 2 under `1.0.0.0/8`; the address `1.2.3.4` matches the full 8-bit
prefix of record 2, so by the claim the result should be `[1, 2]` with the
ancestor record 1 first, but the code returns only `[2]`: records stored at
the root (prefix length 0) are never collected by `searchAll`. -/
theorem C2_root_ancestor_missing :
    (insertS (emptyNode : TrieNode ℕ) ("0.0.0.0/0".toList) 1).2 = none ∧
      (insertS (insertS (emptyNode : TrieNode ℕ) ("0.0.0.0/0".toList) 1).1
        ("1.0.0.0/8".toList) 2).2 = none ∧
      searchAll (insertS (insertS (emptyNode : TrieNode ℕ) ("0.0.0.0/0".toList) 1).1
        ("1.0.0.0/8".toList) 2).1 ("1.2.3.4".toList) = .ok [2] :=
  ⟨by decide, by decide, by decide⟩

/-- Claim C7: `searchAll` on a well-formed address never fails (it returns the
collected matches, an empty list when nothing matches, e.g. querying
`11.0.0.0` against a trie holding only `10.0.0.0/8`), while on a malformed
address it always propagates the encoder's error and never returns an empty
success. -/
theorem C7_unmatched_empty_vs_malformed :
    (∀ (α : Type) (t : TrieNode α) (ip bits : List Char), ipToBinary ip = .ok bits →
        searchAll t ip = .ok (searchBits t (bits.take 32))) ∧
      (∀ (α : Type) (t : TrieNode α) (ip : List Char) (e : IpErr),
        ipToBinary ip = .error e → searchAll t ip = .error e) ∧
      searchAll (insertS (emptyNode : TrieNode ℕ) ("10.0.0.0/8".toList) 1).1
        ("11.0.0.0".toList) = .ok [] := by
  refine ⟨?_, ?_, by decide⟩
  · intro α t ip bits hb
    exact searchAll_eval t ip bits hb
  · intro α t ip e hb
    rw [searchAll]
    simp only [hb]

theorem C7_witness :
    searchAll (emptyNode : TrieNode ℕ) ("1.2.3".toList) =
      .error (.invalidAddressFormat ("1.2.3".toList)) :=
  C7_unmatched_empty_vs_malformed.2.1 ℕ emptyNode ("1.2.3".toList)
    (.invalidAddressFormat ("1.2.3".toList)) (by decide)

/-- Claim C8: when `insert` fails (both of its throw sites precede the first
trie mutation in the source), the trie is unchanged, and therefore every
subsequent `searchAll` behaves exactly as if the failing insert had never
been attempted. -/
theorem C8_failed_insert_unchanged {α : Type} (t : TrieNode α) (c : List Char) (r : α)
    (h : (insertS t c r).2.isSome = true) :
    (insertS t c r).1 = t ∧ ∀ ip, searchAll (insertS t c r).1 ip = searchAll t ip := by
  have h1 : (insertS t c r).1 = t := by
    rw [insertS] at h ⊢
    cases hp : parseCIDR c with
    | error e => simp only [hp]
    | ok v =>
      obtain ⟨ip, p⟩ := v
      simp only [hp] at h ⊢
      cases hb : ipToBinary ip with
      | error e => simp only [hb]
      | ok bits =>
        simp only [hb, Option.isSome_none] at h
        exact Bool.noConfusion h
  exact ⟨h1, fun ip => by rw [h1]⟩

theorem C8_witness :
    (insertS (emptyNode : TrieNode ℕ) ("1.11.0.0/33".toList) 5).1 = emptyNode :=
  (C8_failed_insert_unchanged emptyNode ("1.11.0.0/33".toList) 5 (by decide)).1

theorem binTake (x y : List Char) (h : x.length = 8) : (x ++ y).take 8 = x := by
  rw [← h]
  exact List.take_left x y

theorem binDrop (x y : List Char) (h : x.length = 8) : (x ++ y).drop 8 = y := by
  rw [← h]
  exact List.drop_left x y

/-- Claim C3: encoding a dotted quad of digit fields whose values are at most
255 succeeds and returns exactly the concatenation of the four octets' 8-bit
big-endian binary representations in field order: 32 characters, all '0' or
'1', and grouping the output by 8 bits and decoding each group
binary-to-decimal recovers the four octet values. -/
theorem C3_encode_roundtrip (f1 f2 f3 f4 B : List Char)
    (hB : B = bigEndian8 (decValue f1) ++ (bigEndian8 (decValue f2) ++
      (bigEndian8 (decValue f3) ++ bigEndian8 (decValue f4))))
    (h1 : f1 ≠ []) (d1 : f1.all Char.isDigit = true) (v1 : decValue f1 ≤ 255)
    (h2 : f2 ≠ []) (d2 : f2.all Char.isDigit = true) (v2 : decValue f2 ≤ 255)
    (h3 : f3 ≠ []) (d3 : f3.all Char.isDigit = true) (v3 : decValue f3 ≤ 255)
    (h4 : f4 ≠ []) (d4 : f4.all Char.isDigit = true) (v4 : decValue f4 ≤ 255) :
    ipToBinary (f1 ++ '.' :: (f2 ++ '.' :: (f3 ++ '.' :: f4))) = .ok B ∧
      B.length = 32 ∧
      B.all (fun c => c == '0' || c == '1') = true ∧
      binToNat (B.take 8) = decValue f1 ∧
      binToNat ((B.drop 8).take 8) = decValue f2 ∧
      binToNat (((B.drop 8).drop 8).take 8) = decValue f3 ∧
      binToNat (((B.drop 8).drop 8).drop 8) = decValue f4 := by
  subst hB
  have hsplit : splitOn '.' (f1 ++ '.' :: (f2 ++ '.' :: (f3 ++ '.' :: f4))) =
      [f1, f2, f3, f4] :=
    splitOn_four f1 f2 f3 f4 (digits_no_dot f1 d1) (digits_no_dot f2 d2)
      (digits_no_dot f3 d3) (digits_no_dot f4 d4)
  have e4 : octetsToBits [f4] = .ok (bigEndian8 (decValue f4) ++ []) :=
    octetsToBits_cons_ok f4 [] (decValue f4) [] (jsNumber_digits f4 h4 d4) v4 rfl
  have e3 := octetsToBits_cons_ok f3 [f4] (decValue f3) _ (jsNumber_digits f3 h3 d3) v3 e4
  have e2 := octetsToBits_cons_ok f2 [f3, f4] (decValue f2) _ (jsNumber_digits f2 h2 d2) v2 e3
  have e1 := octetsToBits_cons_ok f1 [f2, f3, f4] (decValue f1) _
    (jsNumber_digits f1 h1 d1) v1 e2
  simp only [List.append_nil] at e1
  refine ⟨?_, ?_, ?_, ?_, ?_, ?_, ?_⟩
  · rw [ipToBinary, hsplit, if_neg (by simp)]
    exact e1
  · simp only [List.length_append, bigEndian8_len]
  · simp only [List.all_append, bigEndian8_chars _ v1, bigEndian8_chars _ v2,
      bigEndian8_chars _ v3, bigEndian8_chars _ v4, Bool.and_self]
  · rw [binTake _ _ (bigEndian8_len _)]
    exact bigEndian8_binToNat _ v1
  · rw [binDrop _ _ (bigEndian8_len _), binTake _ _ (bigEndian8_len _)]
    exact bigEndian8_binToNat _ v2
  · rw [binDrop _ _ (bigEndian8_len _), binDrop _ _ (bigEndian8_len _),
      binTake _ _ (bigEndian8_len _)]
    exact bigEndian8_binToNat _ v3
  · rw [binDrop _ _ (bigEndian8_len _), binDrop _ _ (bigEndian8_len _),
      binDrop _ _ (bigEndian8_len _)]
    exact bigEndian8_binToNat _ v4

theorem C3_witness :
    ipToBinary ("1".toList ++ '.' :: ("11".toList ++ '.' :: ("128".toList ++ '.' ::
        "0".toList))) = .ok ("00000001000010111000000000000000".toList) ∧
      ("00000001000010111000000000000000".toList).length = 32 ∧
      ("00000001000010111000000000000000".toList).all
        (fun c => c == '0' || c == '1') = true ∧
      binToNat (("00000001000010111000000000000000".toList).take 8) = decValue ("1".toList) ∧
      binToNat ((("00000001000010111000000000000000".toList).drop 8).take 8) =
        decValue ("11".toList) ∧
      binToNat (((("00000001000010111000000000000000".toList).drop 8).drop 8).take 8) =
        decValue ("128".toList) ∧
      binToNat (((("00000001000010111000000000000000".toList).drop 8).drop 8).drop 8) =
        decValue ("0".toList) :=
  C3_encode_roundtrip ("1".toList) ("11".toList) ("128".toList) ("0".toList)
    ("00000001000010111000000000000000".toList) (by decide) (by decide) (by decide)
    (by decide) (by decide) (by decide) (by decide) (by decide) (by decide) (by decide)
    (by decide) (by decide) (by decide)

/-- Claim C4: inserting two records under the identical CIDR `1.2.3.0/24`
appends both to the same node (the node at the 24-bit path holds exactly
`[r1, r2]`), and any query address whose first 24 encoded bits match that
prefix returns both records in insertion order; taking `r1 = r2` shows a
twice-inserted pair appears twice (no deduplication). -/
theorem C4_multiplicity {α : Type} (r1 r2 : α) (ip bits : List Char)
    (hb : ipToBinary ip = .ok bits)
    (hm : bits.take 24 = "000000010000001000000011".toList) :
    (insertS (emptyNode : TrieNode α) ("1.2.3.0/24".toList) r1).2 = none ∧
      (insertS (insertS (emptyNode : TrieNode α) ("1.2.3.0/24".toList) r1).1
        ("1.2.3.0/24".toList) r2).2 = none ∧
      recordsAt (insertS (insertS (emptyNode : TrieNode α) ("1.2.3.0/24".toList) r1).1
        ("1.2.3.0/24".toList) r2).1 ("000000010000001000000011".toList) = [r1, r2] ∧
      searchAll (insertS (insertS (emptyNode : TrieNode α) ("1.2.3.0/24".toList) r1).1
        ("1.2.3.0/24".toList) r2).1 ip = .ok [r1, r2] := by
  have hp : parseCIDR ("1.2.3.0/24".toList) = .ok ("1.2.3.0".toList, ((24 : ℕ) : ℚ)) := by
    decide
  have hb0 : ipToBinary ("1.2.3.0".toList) =
      .ok ("00000001000000100000001100000000".toList) := by decide
  have htake : ("00000001000000100000001100000000".toList).take (iterCount ((24 : ℕ) : ℚ)) =
      "000000010000001000000011".toList := by decide
  have e1 : insertS (emptyNode : TrieNode α) ("1.2.3.0/24".toList) r1 =
      (insertBits emptyNode ("000000010000001000000011".toList) r1, none) := by
    rw [insertS_eval emptyNode _ _ _ _ r1 hp hb0, htake]
  have e2 : insertS (insertBits (emptyNode : TrieNode α)
        ("000000010000001000000011".toList) r1) ("1.2.3.0/24".toList) r2 =
      (insertBits (insertBits emptyNode ("000000010000001000000011".toList) r1)
        ("000000010000001000000011".toList) r2, none) := by
    rw [insertS_eval _ _ _ _ _ r2 hp hb0, htake]
  refine ⟨by rw [e1], ?_, ?_, ?_⟩
  · rw [e1]
    dsimp only
    rw [e2]
  · rw [e1]
    dsimp only
    rw [e2]
    dsimp only
    rw [recordsAt_insertBits_self, recordsAt_insertBits_self, recordsAt_empty]
    rfl
  · rw [e1]
    dsimp only
    rw [e2]
    dsimp only
    rw [searchAll_eval _ ip bits hb]
    have hlen := ipToBinary_ok_len ip bits hb
    rw [show bits.take 32 = bits from by rw [← hlen]; exact List.take_length bits]
    have hq : bits = "000000010000001000000011".toList ++ bits.drop 24 := by
      rw [← hm]
      exact (List.take_append_drop 24 bits).symm
    rw [hq]
    have hP : "000000010000001000000011".toList =
        '0' :: "00000010000001000000011".toList := by decide
    rw [hP, List.cons_append, searchBits_double]

theorem C4_witness :
    (insertS (emptyNode : TrieNode ℕ) ("1.2.3.0/24".toList) 7).2 = none ∧
      (insertS (insertS (emptyNode : TrieNode ℕ) ("1.2.3.0/24".toList) 7).1
        ("1.2.3.0/24".toList) 8).2 = none ∧
      recordsAt (insertS (insertS (emptyNode : TrieNode ℕ) ("1.2.3.0/24".toList) 7).1
        ("1.2.3.0/24".toList) 8).1 ("000000010000001000000011".toList) = [7, 8] ∧
      searchAll (insertS (insertS (emptyNode : TrieNode ℕ) ("1.2.3.0/24".toList) 7).1
        ("1.2.3.0/24".toList) 8).1 ("1.2.3.5".toList) = .ok [7, 8] :=
  C4_multiplicity 7 8 ("1.2.3.5".toList)
    ("00000001000000100000001100000101".toList) (by decide) (by decide)

/-- Claim C5 counterexample: the input "1.2.3." does split into exactly 4
dot-separated fields, and its last field is empty — not an integer — yet
encode succeeds, returning the bits of 1.2.3.0, because JavaScript's
`Number('')` is `0`; this contradicts the claim that any non-numeric field
causes failure. -/
theorem C5_counterexample :
    splitOn '.' ("1.2.3.".toList) = ["1".toList, "2".toList, "3".toList, []] ∧
      ipToBinary ("1.2.3.".toList) =
        .ok ("00000001000000100000001100000000".toList) :=
  ⟨by decide, by decide⟩

/-- Claim C5 (amended): encode fails exactly when the input does not split
into exactly 4 dot-separated fields, or some field fails the octet check —
i.e. it is NaN under the `Number` coercion or its coerced value lies outside
[0, 255]; an empty field coerces to 0 and therefore does not fail.  On a
wrong field count the error carries the whole address; otherwise the error
carries the offending octet. -/
theorem C5_amended (s : List Char) :
    (isOk (ipToBinary s) = true ↔
      (splitOn '.' s).length = 4 ∧ (splitOn '.' s).all octOk = true) ∧
      ∀ e, ipToBinary s = .error e →
        ((splitOn '.' s).length ≠ 4 ∧ e = .invalidAddressFormat s) ∨
          ∃ f, f ∈ splitOn '.' s ∧ octOk f = false ∧ e = .invalidOctet f :=
  ⟨ipToBinary_isOk s, fun e he => ipToBinary_error_char s e he⟩

theorem C5_witness :
    ((splitOn '.' ("1.2.300.4".toList)).length ≠ 4 ∧
        IpErr.invalidOctet ("300".toList) = .invalidAddressFormat ("1.2.300.4".toList)) ∨
      ∃ f, f ∈ splitOn '.' ("1.2.300.4".toList) ∧ octOk f = false ∧
        IpErr.invalidOctet ("300".toList) = .invalidOctet f :=
  (C5_amended ("1.2.300.4".toList)).2 (.invalidOctet ("300".toList)) (by decide)

/-- Claim C6 counterexample: "1.2.3.4/0.5" has a prefix-length field that
does not parse as an integer, yet `parseCIDR` succeeds, returning the
non-integer prefix length 1/2, because the source only checks `isNaN` and the
range bounds; this contradicts the claim that such inputs fail. -/
theorem C6_counterexample :
    parseCIDR ("1.2.3.4/0.5".toList) = .ok ("1.2.3.4".toList, mkRat 1 2) := by
  decide

/-- Claim C6 (amended): `parseCIDR` fails exactly when the input does not
split into exactly 2 '/'-separated fields (error: invalid CIDR format), or
the prefix-length field is NaN under the `Number` coercion or its coerced
value lies outside [0, 32] (error: invalid prefix length; non-integer values
such as 0.5 inside the range, and the empty field which coerces to 0, are
accepted), or the address field fails encode's validation (the address error
propagating unchanged); otherwise it returns the address string and the
coerced prefix-length value. -/
theorem C6_amended (c : List Char) :
    ((splitOn '/' c).length ≠ 2 → parseCIDR c = .error (.invalidCidrFormat c)) ∧
      ∀ a b, splitOn '/' c = [a, b] →
        (isOk (parseCIDR c) = true ↔ plOk b = true ∧ isOk (ipToBinary a) = true) ∧
          (plOk b = false → parseCIDR c = .error (.invalidPrefixLen c)) ∧
          (∀ e, plOk b = true → ipToBinary a = .error e → parseCIDR c = .error e) ∧
          (∀ q bits, jsNumber b = some q → ¬(q < 0 ∨ 32 < q) → ipToBinary a = .ok bits →
            parseCIDR c = .ok (a, q)) := by
  constructor
  · intro h
    rw [parseCIDR]
    rcases hs : splitOn '/' c with _ | ⟨a, _ | ⟨b, _ | ⟨x, l⟩⟩⟩
    · simp only [hs]
    · simp only [hs]
    · exact absurd (by rw [hs]; rfl) h
    · simp only [hs]
  · intro a b hs
    cases hj : jsNumber b with
    | none =>
      have hPc : parseCIDR c = .error (.invalidPrefixLen c) := by
        rw [parseCIDR]
        simp only [hs, hj]
      have hpl : plOk b = false := plOk_none b hj
      refine ⟨by rw [hPc]; simp [hpl], fun _ => hPc, ?_, ?_⟩
      · intro e hpt
        rw [hpl] at hpt
        exact Bool.noConfusion hpt
      · intro q bits hq
        exact Option.noConfusion hq
    | some q =>
      by_cases hr : q < 0 ∨ 32 < q
      · have hPc : parseCIDR c = .error (.invalidPrefixLen c) := by
          rw [parseCIDR]
          simp only [hs, hj, if_pos hr]
        have hpl : plOk b = false := plOk_bad b q hj hr
        refine ⟨by rw [hPc]; simp [hpl], fun _ => hPc, ?_, ?_⟩
        · intro e hpt
          rw [hpl] at hpt
          exact Bool.noConfusion hpt
        · intro q' bits hq' hr' _
          cases hq'
          exact absurd hr hr'
      · have hpl : plOk b = true := plOk_good b q hj hr
        cases hi : ipToBinary a with
        | error e0 =>
          have hPc : parseCIDR c = .error e0 := by
            rw [parseCIDR]
            simp only [hs, hj, if_neg hr, hi]
          refine ⟨by rw [hPc]; simp, ?_, ?_, ?_⟩
          · intro hf
            rw [hpl] at hf
            exact Bool.noConfusion hf
          · intro e hpt hie
            cases hie
            exact hPc
          · intro q' bits hq' hr' hib
            exact Except.noConfusion hib
        | ok bits0 =>
          have hPc : parseCIDR c = .ok (a, q) := by
            rw [parseCIDR]
            simp only [hs, hj, if_neg hr, hi]
          refine ⟨by rw [hPc]; simp [hpl], ?_, ?_, ?_⟩
          · intro hf
            rw [hpl] at hf
            exact Bool.noConfusion hf
          · intro e _ hie
            exact Except.noConfusion hie
          · intro q' bits hq' _ _
            cases hq'
            exact hPc

theorem C6_witness :
    parseCIDR ("1.2.3.4/33".toList) = .error (.invalidPrefixLen ("1.2.3.4/33".toList)) :=
  ((C6_amended ("1.2.3.4/33".toList)).2 ("1.2.3.4".toList) ("33".toList)
    (by decide)).2.1 (by decide)

/-- Claim C9: `insert` consumes only the first prefix-length bits of the
encoded base address: two accepted CIDR strings with the same natural prefix
length whose encoded addresses agree on the first `n` bits produce, for the
same record, the same trie and hence identical `searchAll` results for every
query; host bits past the prefix are neither rejected nor truncated by
`parseCIDR`, merely ignored here. -/
theorem C9_host_bits_ignored {α : Type} (t : TrieNode α) (r : α)
    (c1 c2 ip1 ip2 : List Char) (n : ℕ) (b1 b2 : List Char)
    (hp1 : parseCIDR c1 = .ok (ip1, ((n : ℕ) : ℚ)))
    (hp2 : parseCIDR c2 = .ok (ip2, ((n : ℕ) : ℚ)))
    (hb1 : ipToBinary ip1 = .ok b1) (hb2 : ipToBinary ip2 = .ok b2)
    (hagree : b1.take n = b2.take n) :
    (insertS t c1 r).2 = none ∧ (insertS t c2 r).2 = none ∧
      (insertS t c1 r).1 = (insertS t c2 r).1 ∧
      ∀ q, searchAll (insertS t c1 r).1 q = searchAll (insertS t c2 r).1 q := by
  have e1 := insertS_eval t c1 ip1 _ b1 r hp1 hb1
  have e2 := insertS_eval t c2 ip2 _ b2 r hp2 hb2
  rw [iterCount_natCast] at e1 e2
  have heq : (insertS t c1 r).1 = (insertS t c2 r).1 := by
    rw [e1, e2]
    dsimp only
    rw [hagree]
  exact ⟨by rw [e1], by rw [e2], heq, fun q => by rw [heq]⟩

theorem C9_witness :
    searchAll (insertS (emptyNode : TrieNode ℕ) ("10.0.0.0/8".toList) 5).1
        ("10.9.9.9".toList) =
      searchAll (insertS (emptyNode : TrieNode ℕ) ("10.255.255.255/8".toList) 5).1
        ("10.9.9.9".toList) :=
  (C9_host_bits_ignored emptyNode 5 ("10.0.0.0/8".toList) ("10.255.255.255/8".toList)
    ("10.0.0.0".toList) ("10.255.255.255".toList) 8
    ("00001010000000000000000000000000".toList)
    ("00001010111111111111111111111111".toList)
    (by decide) (by decide) (by decide) (by decide) (by decide)).2.2.2 ("10.9.9.9".toList)

/-- Claim C10: a successful insert appends exactly one record at the node
reached by the prefix-length-bit path of the encoded base address, leaves the
records of every other node unchanged (missing nodes counting as empty), and
leaves the subtree at every path that is not a prefix of the insertion path
untouched — so only nodes on the insertion path are mutated or created. -/
theorem C10_insert_frame {α : Type} (t : TrieNode α) (c ip : List Char) (p : ℚ)
    (bits : List Char) (r : α)
    (hp : parseCIDR c = .ok (ip, p)) (hb : ipToBinary ip = .ok bits) :
    (insertS t c r).2 = none ∧
      recordsAt (insertS t c r).1 (bits.take (iterCount p)) =
        recordsAt t (bits.take (iterCount p)) ++ [r] ∧
      (∀ q, q ≠ bits.take (iterCount p) →
        recordsAt (insertS t c r).1 q = recordsAt t q) ∧
      (∀ q, (¬∃ rest, q ++ rest = bits.take (iterCount p)) →
        nodeAt (insertS t c r).1 q = nodeAt t q) := by
  have e := insertS_eval t c ip p bits r hp hb
  refine ⟨by rw [e], ?_, ?_, ?_⟩
  · rw [e]
    exact recordsAt_insertBits_self _ t r
  · intro q hq
    rw [e]
    exact recordsAt_insertBits_ne _ t r q hq
  · intro q hq
    rw [e]
    exact nodeAt_insertBits_off _ t r q hq

theorem C10_witness :
    recordsAt (insertS (emptyNode : TrieNode ℕ) ("1.0.0.0/8".toList) 5).1
        (("00000001000000000000000000000000".toList).take (iterCount ((8 : ℕ) : ℚ))) =
      recordsAt (emptyNode : TrieNode ℕ)
        (("00000001000000000000000000000000".toList).take (iterCount ((8 : ℕ) : ℚ))) ++
        [5] ∧
      recordsAt (insertS (emptyNode : TrieNode ℕ) ("1.0.0.0/8".toList) 5).1 ['1'] =
        recordsAt (emptyNode : TrieNode ℕ) ['1'] ∧
      nodeAt (insertS (emptyNode : TrieNode ℕ) ("1.0.0.0/8".toList) 5).1 ['1'] =
        nodeAt (emptyNode : TrieNode ℕ) ['1'] := by
  have h := C10_insert_frame (emptyNode : TrieNode ℕ) ("1.0.0.0/8".toList)
    ("1.0.0.0".toList) ((8 : ℕ) : ℚ) ("00000001000000000000000000000000".toList) 5
    (by decide) (by decide)
  refine ⟨h.2.1, h.2.2.1 ['1'] (by decide), h.2.2.2 ['1'] ?_⟩
  rintro ⟨rest, hr⟩
  have ht : ("00000001000000000000000000000000".toList).take (iterCount ((8 : ℕ) : ℚ)) =
      "00000001".toList := by decide
  rw [ht] at hr
  simp at hr

end IpTrie
